import Mathlib

/-!
Verification development for the startup-time HTML compilation pipeline of the
infrastructure-selfserve-portal server (`server/app/__init__.py`).

The development shallowly embeds:

* `file_to_sri` — the sub-resource-integrity hasher: `"sha384-" ++ base64(sha384(bytes))`.
  The library calls `hashlib.sha384` and `base64.b64encode` are embedded as executable
  Lean functions (`sha384Bytes`, `base64Encode`) implementing FIPS 180-4 SHA-512/384 and
  RFC 4648 base64 over byte lists.
* `compile_html` — the pre-serving hook: it reads the master template, scans it with
  `re.finditer` for the pattern `(src="(.+?\.js)")`, stamps integrity attributes by
  global string replacement, ensures the compiled output directory exists (mode 0o700)
  and writes one compiled page per top-level `.html` fragment.

Texts are modelled as `List Char`; file bytes as `List Nat` (each < 256; text files are
related to bytes by `Char.toNat`, faithful for the ASCII sources the server handles).
The filesystem is a record `FS` of the pieces the code reads and writes: the master
template (in the `templates/` subdirectory), the static-asset files by relative path,
existence/creatability of the compiled output directory, and the compiled directory
contents.  Fallible steps (missing template, uncreatable output directory) are an
`Except` result.
-/

set_option maxRecDepth 10000

/-! ## Bytes, words, and SHA-384 (embedding of `hashlib.sha384`) -/

/-- 64-bit word arithmetic: truncate a `Nat` to 64 bits. -/
def w64 (x : Nat) : Nat := x % 2 ^ 64

/-- Right rotation of a 64-bit word. -/
def rotr64 (x n : Nat) : Nat := w64 (x / 2 ^ n + x % 2 ^ n * 2 ^ (64 - n))

/-- Logical right shift of a 64-bit word. -/
def shr64 (x n : Nat) : Nat := x / 2 ^ n

/-- Bitwise complement of a 64-bit word. -/
def not64 (x : Nat) : Nat := (2 ^ 64 - 1) ^^^ x

/-- FIPS 180-4 `Ch` function. -/
def sha2Ch (e f g : Nat) : Nat := (e &&& f) ^^^ (not64 e &&& g)

/-- FIPS 180-4 `Maj` function. -/
def sha2Maj (a b c : Nat) : Nat := (a &&& b) ^^^ (a &&& c) ^^^ (b &&& c)

/-- FIPS 180-4 `Σ0` for SHA-512. -/
def bigSigma0 (x : Nat) : Nat := rotr64 x 28 ^^^ rotr64 x 34 ^^^ rotr64 x 39

/-- FIPS 180-4 `Σ1` for SHA-512. -/
def bigSigma1 (x : Nat) : Nat := rotr64 x 14 ^^^ rotr64 x 18 ^^^ rotr64 x 41

/-- FIPS 180-4 `σ0` for SHA-512. -/
def smallSigma0 (x : Nat) : Nat := rotr64 x 1 ^^^ rotr64 x 8 ^^^ shr64 x 7

/-- FIPS 180-4 `σ1` for SHA-512. -/
def smallSigma1 (x : Nat) : Nat := rotr64 x 19 ^^^ rotr64 x 61 ^^^ shr64 x 6

/-- The 80 SHA-512 round constants (fractional cube roots of the first 80 primes). -/
def sha512K : List Nat := [
  4794697086780616226, 8158064640168781261, 13096744586834688815,
  16840607885511220156, 4131703408338449720, 6480981068601479193,
  10538285296894168987, 12329834152419229976, 15566598209576043074,
  1334009975649890238, 2608012711638119052, 6128411473006802146,
  8268148722764581231, 9286055187155687089, 11230858885718282805,
  13951009754708518548, 16472876342353939154, 17275323862435702243,
  1135362057144423861, 2597628984639134821, 3308224258029322869,
  5365058923640841347, 6679025012923562964, 8573033837759648693,
  10970295158949994411, 12119686244451234320, 12683024718118986047,
  13788192230050041572, 14330467153632333762, 15395433587784984357,
  489312712824947311, 1452737877330783856, 2861767655752347644,
  3322285676063803686, 5560940570517711597, 5996557281743188959,
  7280758554555802590, 8532644243296465576, 9350256976987008742,
  10552545826968843579, 11727347734174303076, 12113106623233404929,
  14000437183269869457, 14369950271660146224, 15101387698204529176,
  15463397548674623760, 17586052441742319658, 1182934255886127544,
  1847814050463011016, 2177327727835720531, 2830643537854262169,
  3796741975233480872, 4115178125766777443, 5681478168544905931,
  6601373596472566643, 7507060721942968483, 8399075790359081724,
  8693463985226723168, 9568029438360202098, 10144078919501101548,
  10430055236837252648, 11840083180663258601, 13761210420658862357,
  14299343276471374635, 14566680578165727644, 15097957966210449927,
  16922976911328602910, 17689382322260857208, 500013540394364858,
  748580250866718886, 1242879168328830382, 1977374033974150939,
  2944078676154940804, 3659926193048069267, 4368137639120453308,
  4836135668995329356, 5532061633213252278, 6448918945643986474,
  6902733635092675308, 7801388544844847127
]

/-- Hash state: eight 64-bit words. -/
structure Sha2State where
  a : Nat
  b : Nat
  c : Nat
  d : Nat
  e : Nat
  f : Nat
  g : Nat
  h : Nat
deriving DecidableEq

/-- SHA-384 initial hash value (FIPS 180-4 §5.3.4). -/
def sha384IV : Sha2State :=
  ⟨14680500436340154072, 7105036623409894663, 10473403895298186519, 1526699215303891257,
   7436329637833083697, 10282925794625328401, 15784041429090275239, 5167115440072839076⟩

/-- One SHA-512 round. -/
def sha2Round (st : Sha2State) (kw : Nat) : Sha2State :=
  let t1 := w64 (st.h + bigSigma1 st.e + sha2Ch st.e st.f st.g + kw)
  let t2 := w64 (bigSigma0 st.a + sha2Maj st.a st.b st.c)
  ⟨w64 (t1 + t2), st.a, st.b, st.c, w64 (st.d + t1), st.e, st.f, st.g⟩

/-- Extend the 16 message words of a block to the 80-word schedule. -/
def sha2Schedule (ws : List Nat) (rounds : Nat) : List Nat :=
  match rounds with
  | 0 => ws
  | n + 1 =>
    let t := ws.length
    let wt := w64 (smallSigma1 (ws.getD (t - 2) 0) + ws.getD (t - 7) 0 +
                   smallSigma0 (ws.getD (t - 15) 0) + ws.getD (t - 16) 0)
    sha2Schedule (ws ++ [wt]) n

/-- Compress one 16-word block into the state. -/
def sha2Compress (st : Sha2State) (block : List Nat) : Sha2State :=
  let ws := sha2Schedule block 64
  let r := (ws.zip sha512K).foldl (fun s p => sha2Round s (w64 (p.1 + p.2))) st
  ⟨w64 (st.a + r.a), w64 (st.b + r.b), w64 (st.c + r.c), w64 (st.d + r.d),
   w64 (st.e + r.e), w64 (st.f + r.f), w64 (st.g + r.g), w64 (st.h + r.h)⟩

/-- Big-endian bytes of a 64-bit word, most significant first. -/
def wordToBytes (x : Nat) : List Nat :=
  [x / 2 ^ 56 % 256, x / 2 ^ 48 % 256, x / 2 ^ 40 % 256, x / 2 ^ 32 % 256,
   x / 2 ^ 24 % 256, x / 2 ^ 16 % 256, x / 2 ^ 8 % 256, x % 256]

/-- Combine big-endian bytes into words, eight bytes per 64-bit word. -/
def bytesToWords : List Nat → List Nat
  | b0 :: b1 :: b2 :: b3 :: b4 :: b5 :: b6 :: b7 :: rest =>
    (((((((b0 * 256 + b1) * 256 + b2) * 256 + b3) * 256 + b4) * 256 + b5) * 256 + b6) * 256
      + b7) :: bytesToWords rest
  | _ => []

/-- Split a word list into 16-word message blocks. -/
def wordsToBlocks : List Nat → List (List Nat)
  | w0 :: w1 :: w2 :: w3 :: w4 :: w5 :: w6 :: w7 :: w8 :: w9 :: w10 :: w11 :: w12 :: w13 ::
      w14 :: w15 :: rest =>
    [w0, w1, w2, w3, w4, w5, w6, w7, w8, w9, w10, w11, w12, w13, w14, w15]
      :: wordsToBlocks rest
  | _ => []

/-- FIPS 180-4 message padding for SHA-384/512: append `0x80`, zeros to 112 mod 128,
then the 128-bit big-endian bit length. -/
def sha2Pad (msg : List Nat) : List Nat :=
  let padZeros := (128 - (msg.length + 17) % 128) % 128
  msg ++ [0x80] ++ List.replicate padZeros 0 ++
    List.replicate 8 0 ++ wordToBytes (w64 (msg.length * 8))

/-- SHA-384 digest (48 bytes) of a byte list — embedding of `hashlib.sha384(...).digest()`. -/
def sha384Bytes (msg : List Nat) : List Nat :=
  let blocks := wordsToBlocks (bytesToWords (sha2Pad msg))
  let st := blocks.foldl sha2Compress sha384IV
  wordToBytes st.a ++ wordToBytes st.b ++ wordToBytes st.c ++
    wordToBytes st.d ++ wordToBytes st.e ++ wordToBytes st.f

/-! ## Base64 (embedding of `base64.b64encode`) -/

/-- The RFC 4648 base64 alphabet. -/
def base64Alphabet : List Char :=
  "ABCDEFGHIJKLMNOPQRSTUVWXYZabcdefghijklmnopqrstuvwxyz0123456789+/".toList

/-- RFC 4648 base64 encoding of a byte list, as characters (`=`-padded final group). -/
def base64Encode : List Nat → List Char
  | b0 :: b1 :: b2 :: rest =>
    base64Alphabet.getD (b0 / 4) '?' :: base64Alphabet.getD (b0 % 4 * 16 + b1 / 16) '?' ::
      base64Alphabet.getD (b1 % 16 * 4 + b2 / 64) '?' :: base64Alphabet.getD (b2 % 64) '?' ::
      base64Encode rest
  | [b0, b1] =>
    [base64Alphabet.getD (b0 / 4) '?', base64Alphabet.getD (b0 % 4 * 16 + b1 / 16) '?',
     base64Alphabet.getD (b1 % 16 * 4) '?', '=']
  | [b0] =>
    [base64Alphabet.getD (b0 / 4) '?', base64Alphabet.getD (b0 % 4 * 16) '?', '=', '=']
  | [] => []

/-- The sub-resource-integrity token of a byte list:
`"sha384-"` followed by the base64 of the SHA-384 digest.  This is the pure core of
`file_to_sri` in `server/app/__init__.py`. -/
def sriOf (content : List Char) : List Char :=
  "sha384-".toList ++ base64Encode (sha384Bytes (content.map Char.toNat))

/-! ## The script-reference scanner

Embedding of `re.finditer(r'(src="(.+?\.js)")', master_template)`.  A match starts with
the literal `src="`, then the lazy `.+?` consumes a minimal positive number of
non-newline characters such that the literal `.js` followed by `"` comes next.
Group 1 is the whole `src="...js"` text, group 2 the quoted path.  Matches are
non-overlapping and scanning resumes at the end of each match, as `finditer` does. -/

/-- The literal `src="` opening a script reference. -/
def srcLit : List Char := "src=\"".toList

/-- Minimal `m ≥ 1` such that, in the text after `src="`, the first `m` characters are
non-newline (the lazy `.+?`) and are followed by the literal `.js"`; `none` when no
such `m` exists. -/
def srcClose : List Char → Option Nat
  | [] => none
  | c :: rest =>
    if c = '\n' then none
    else if rest.take 4 = ['.', 'j', 's', '"'] then some 1
    else (srcClose rest).map (· + 1)

/-- Attempt a regex match at the head of `s`.  Returns `(length of group 1, length of
group 2)` on success: group 1 is `s.take l1` and group 2 is `(s.drop 5).take l2`. -/
def matchAt (s : List Char) : Option (Nat × Nat) :=
  if s.take 5 = srcLit then (srcClose (s.drop 5)).map (fun m => (m + 9, m + 3))
  else none

/-- One script-reference match: the text since the previous match (`pre`), the whole
attribute text `src="..."` (`g1`, regex group 1) and the quoted path (`g2`, group 2). -/
structure RefMatch where
  pre : List Char
  g1 : List Char
  g2 : List Char
deriving DecidableEq

/-- Fuel-indexed scanner loop; `fuel ≥ s.length` makes it total in the intended sense.
At each position it attempts a match; on success it records the match and resumes after
it, otherwise it shifts one character into the pending segment (accumulated reversed). -/
def scanGo : Nat → List Char → List Char → List RefMatch × List Char
  | 0, s, seg => ([], seg.reverse ++ s)
  | fuel + 1, s, seg =>
    match matchAt s with
    | some (l1, l2) =>
      let r := scanGo fuel (s.drop l1) []
      (⟨seg.reverse, s.take l1, (s.drop 5).take l2⟩ :: r.1, r.2)
    | none =>
      match s with
      | [] => ([], seg.reverse)
      | c :: t => scanGo fuel t (c :: seg)

/-- All matches of `(src="(.+?\.js)")` in scan order, with their leading segments. -/
def findMatches (s : List Char) : List RefMatch := (scanGo s.length s []).1

/-- The text after the final match (the whole text when there is no match). -/
def lastSeg (s : List Char) : List Char := (scanGo s.length s []).2

/-! ## Python `str.replace` -/

/-- Fuel-indexed loop of Python's `str.replace`: scan left to right; at each position
where `pat` is a prefix, emit `rep` and resume after the occurrence (non-overlapping),
otherwise copy one character. -/
def replaceGo (pat rep : List Char) : Nat → List Char → List Char
  | 0, s => s
  | fuel + 1, s =>
    if pat.isPrefixOf s then rep ++ replaceGo pat rep fuel (s.drop pat.length)
    else
      match s with
      | [] => []
      | c :: t => c :: replaceGo pat rep fuel t

/-- Python's `s.replace(pat, rep)` for non-empty `pat`: replace every non-overlapping
occurrence, left to right. -/
def replaceAll (s pat rep : List Char) : List Char := replaceGo pat rep s.length s

/-! ## The filesystem model and `compile_html` -/

/-- The pieces of the filesystem that `compile_html` reads and writes.

* `masterTemplate` — content of `templates/master.html` (`none` = missing/unreadable;
  the templates directory is a subdirectory of the static root, so the template is
  never enumerated as a fragment).
* `staticFiles` — the files under the static root `htdocs/`, keyed by relative path;
  paths containing `/` live in subdirectories and are not top-level directory entries.
* `compiledExists` — whether the compiled-output directory `htdocs/compiled` exists.
* `mkdirOk` — whether `os.makedirs` can create it when absent.
* `compiled` — current contents of the compiled-output directory (never read by
  compilation, only overwritten). -/
structure FS where
  masterTemplate : Option (List Char)
  staticFiles : List (List Char × List Char)
  compiledExists : Bool
  mkdirOk : Bool
  compiled : List Char → Option (List Char)

/-- Read a file under the static root (`open(os.path.join(STATIC_DIR, path))`);
`isSome` of this is `os.path.isfile`. -/
def FS.read (fs : FS) (path : List Char) : Option (List Char) :=
  (fs.staticFiles.find? (fun p => p.1 == path)).map Prod.snd

/-- `file_to_sri` of `server/app/__init__.py`: read the file and return
`"sha384-" + base64(sha384(bytes))`; `none` when the file cannot be opened. -/
def file_to_sri (fs : FS) (path : List Char) : Option (List Char) :=
  (fs.read path).map sriOf

/-- `script_src.group(2).lstrip("/")`: the path of a matched reference relative to the
static root, with all leading slashes stripped (so `os.path.join` concatenates it
below the static root). -/
def scriptRel (g2 : List Char) : List Char := g2.dropWhile (· = '/')

/-- The attribute text appended after a stamped reference:
`f" integrity=\"{sri}\""` without the leading original text. -/
def mkIntegrity (tok : List Char) : List Char := " integrity=\"".toList ++ tok ++ ['"']

/-- The body of the stamping loop: if the referenced file exists, every occurrence of
the original attribute text `g1` in the current template is replaced by
`g1 ++ " integrity=\"<sri>\""`; otherwise the template is left as is. -/
def stampOne (fs : FS) (acc : List Char) (m : RefMatch) : List Char :=
  match file_to_sri fs (scriptRel m.g2) with
  | some sri => replaceAll acc m.g1 (m.g1 ++ mkIntegrity sri)
  | none => acc

/-- The integrity-stamping pass: `re.finditer` over the original template text, then
one global replacement per match, threaded through the evolving template. -/
def stampScripts (fs : FS) (tmpl : List Char) : List Char :=
  (findMatches tmpl).foldl (stampOne fs) tmpl

/-- `str.endswith` on character lists. -/
def endsWithL (l s : List Char) : Bool := s.isSuffixOf l

/-- `".html"` as characters. -/
def htmlSuffix : List Char := ".html".toList

/-- `".js"` as characters. -/
def jsSuffix : List Char := ".js".toList

/-- The single placeholder marker of the master template. -/
def contentsMarker : List Char := "{contents}".toList

/-- The fragment files compiled by the final loop: top-level entries of the static
root whose name ends in `.html` (`os.listdir` returns only top-level names, so paths
containing `/` are excluded). -/
def fragmentsOf (fs : FS) : List (List Char) :=
  (fs.staticFiles.map Prod.fst).filter
    (fun n => endsWithL n htmlSuffix && !(n.contains '/'))

/-- The compiled pages, in enumeration order: each fragment's name paired with the
stamped template in which `{contents}` is replaced by the fragment's content. -/
def compiledPages (fs : FS) (stamped : List Char) : List (List Char × List Char) :=
  (fragmentsOf fs).map
    (fun n => (n, replaceAll stamped contentsMarker ((fs.read n).getD [])))

/-- Fatal startup failures of the compilation pass (the spec's `ConfigError`). -/
inductive CompileError where
  | templateMissing
  | outputDirUncreatable
deriving DecidableEq

/-- The observable outcome of one compilation pass: the stamped template, the mode of
the compiled-output directory if it had to be created, and the pages written. -/
structure CompileResult where
  stamped : List Char
  createdDirMode : Option Nat
  outputs : List (List Char × List Char)
deriving DecidableEq

/-- `compile_html` of `server/app/__init__.py`: read the master template (fatal when
missing), stamp script references, ensure the compiled directory exists (created with
mode 0o700; fatal when absent and uncreatable), then compile every fragment. -/
def compile_html (fs : FS) : Except CompileError CompileResult :=
  match fs.masterTemplate with
  | none => .error .templateMissing
  | some tmpl =>
    let stamped := stampScripts fs tmpl
    if fs.compiledExists then
      .ok ⟨stamped, none, compiledPages fs stamped⟩
    else if fs.mkdirOk then
      .ok ⟨stamped, some 0o700, compiledPages fs stamped⟩
    else
      .error .outputDirUncreatable

/-- The filesystem after a successful pass: the compiled directory exists and each
written page overwrites (`open(..., "w")`) any previous file of that name; nothing
else changes. -/
def applyResult (fs : FS) (r : CompileResult) : FS :=
  { fs with
    compiledExists := true
    compiled := r.outputs.foldl (fun f p => fun n => if n = p.1 then some p.2 else f n)
      fs.compiled }

/-! ## Occurrences of a pattern in a text -/

/-- `pat` occurs in `s` at position `p` (the next `pat.length` characters from `p`
are exactly `pat`). -/
def isOccAt (pat s : List Char) (p : Nat) : Prop := (s.drop p).take pat.length = pat

instance instDecIsOccAt (pat s : List Char) (p : Nat) : Decidable (isOccAt pat s p) :=
  inferInstanceAs (Decidable ((s.drop p).take pat.length = pat))

/-- The number of positions at which `pat` occurs in `s`. -/
def occCount (pat s : List Char) : Nat :=
  (List.range (s.length + 1)).countP (fun p => decide (isOccAt pat s p))

/-- All occurrences of `pat` in `s` are at one single position. -/
def AtMostOneOcc (pat s : List Char) : Prop :=
  ∀ p q, isOccAt pat s p → isOccAt pat s q → p = q

theorem isOccAt_iff_split (pat s : List Char) (p : Nat) (hg : pat ≠ []) :
    isOccAt pat s p ↔ ∃ u v, s = u ++ pat ++ v ∧ u.length = p := by
  constructor
  · intro h
    have hp : p ≤ s.length := by
      by_contra hgt
      have hnil : s.drop p = [] := List.drop_eq_nil_of_le (by omega)
      rw [isOccAt, hnil] at h
      exact hg (by simpa using h.symm)
    refine ⟨s.take p, (s.drop p).drop pat.length, ?_, by simp [hp]⟩
    have h2 : s.drop p = pat ++ (s.drop p).drop pat.length := by
      conv_lhs => rw [← List.take_append_drop pat.length (s.drop p), h]
    conv_lhs => rw [← List.take_append_drop p s, h2]
    rw [List.append_assoc]
  · rintro ⟨u, v, rfl, rfl⟩
    rw [isOccAt, List.append_assoc, List.drop_left, List.take_left]

theorem isOccAt_split_mid (pat u v : List Char) : isOccAt pat (u ++ pat ++ v) u.length := by
  rw [isOccAt, List.append_assoc, List.drop_left, List.take_left]

theorem isOccAt_cons (pat s : List Char) (c : Char) (p : Nat) :
    isOccAt pat (c :: s) (p + 1) ↔ isOccAt pat s p := by
  simp [isOccAt]

theorem isOccAt_zero_iff (pat s : List Char) : isOccAt pat s 0 ↔ pat <+: s := by
  rw [isOccAt, List.drop_zero, List.prefix_iff_eq_take]
  exact eq_comm

theorem isOccAt_le_length (pat s : List Char) (p : Nat) (hg : pat ≠ [])
    (h : isOccAt pat s p) : p + pat.length ≤ s.length := by
  obtain ⟨u, v, rfl, rfl⟩ := (isOccAt_iff_split pat s p hg).mp h
  simp only [List.append_assoc, List.length_append]
  omega

theorem isOccAt_append_right (pat u v : List Char) (i : Nat) :
    isOccAt pat (u ++ v) (u.length + i) ↔ isOccAt pat v i := by
  rw [isOccAt, isOccAt, List.drop_append]

theorem isOccAt_append_left (pat u v : List Char) (p : Nat)
    (h : p + pat.length ≤ u.length) : isOccAt pat (u ++ v) p ↔ isOccAt pat u p := by
  rw [isOccAt, isOccAt, List.drop_append_eq_append_drop,
    List.take_append_eq_append_take]
  have h1 : pat.length - (u.drop p).length = 0 := by
    simp only [List.length_drop]
    omega
  have h2 : (v.drop (p - u.length)).take 0 = [] := List.take_zero _
  rw [h1, h2, List.append_nil]

theorem isOccAt_getElem (pat s : List Char) (p : Nat) (hg : pat ≠ [])
    (h : isOccAt pat s p) : ∀ k, k < pat.length → s[p + k]? = pat[k]? := by
  obtain ⟨u, v, rfl, rfl⟩ := (isOccAt_iff_split pat s p hg).mp h
  intro k hk
  rw [List.append_assoc, List.getElem?_append_right (by omega)]
  have h3 : u.length + k - u.length = k := by omega
  rw [h3, List.getElem?_append_left hk]

theorem occCount_one_unique (pat s : List Char) (hg : pat ≠ [])
    (h : occCount pat s = 1) : AtMostOneOcc pat s := by
  intro p q hp hq
  have mem : ∀ r, isOccAt pat s r →
      r ∈ (List.range (s.length + 1)).filter (fun x => decide (isOccAt pat s x)) := by
    intro r hr
    have hle := isOccAt_le_length pat s r hg hr
    have hlen : 0 < pat.length := List.length_pos.mpr hg
    simp only [List.mem_filter, List.mem_range, decide_eq_true_eq]
    exact ⟨by omega, hr⟩
  rw [occCount, List.countP_eq_length_filter] at h
  obtain ⟨a, ha⟩ := List.length_eq_one.mp h
  have hpa := mem p hp
  have hqa := mem q hq
  rw [ha] at hpa hqa
  simp only [List.mem_singleton] at hpa hqa
  omega

/-! ## Properties of the `str.replace` embedding -/

theorem replaceGo_succ (pat rep : List Char) (f : Nat) (s : List Char) :
    replaceGo pat rep (f + 1) s =
      if pat.isPrefixOf s then rep ++ replaceGo pat rep f (s.drop pat.length)
      else
        match s with
        | [] => []
        | c :: t => c :: replaceGo pat rep f t := rfl

theorem replaceGo_of_no_occ (pat rep : List Char) (fuel : Nat) (s : List Char)
    (hf : s.length ≤ fuel) (h : ∀ p, ¬ isOccAt pat s p) : replaceGo pat rep fuel s = s := by
  induction fuel generalizing s with
  | zero => rfl
  | succ f ih =>
    rw [replaceGo_succ]
    have hnp : ¬ pat.isPrefixOf s := by
      intro hp
      exact h 0 ((isOccAt_zero_iff pat s).mpr (List.isPrefixOf_iff_prefix.mp hp))
    rw [if_neg hnp]
    cases s with
    | nil => rfl
    | cons c t =>
      simp only [List.length_cons] at hf
      have ht := ih t (by omega) fun p hp => h (p + 1) ((isOccAt_cons pat t c p).mpr hp)
      show c :: replaceGo pat rep f t = c :: t
      rw [ht]

theorem replaceGo_splice (pat rep : List Char) (hpat : pat ≠ []) (a b : List Char)
    (fuel : Nat) (hf : (a ++ pat ++ b).length ≤ fuel)
    (huniq : AtMostOneOcc pat (a ++ pat ++ b)) :
    replaceGo pat rep fuel (a ++ pat ++ b) = a ++ rep ++ b := by
  have hplen : 0 < pat.length := List.length_pos.mpr hpat
  induction a generalizing fuel with
  | nil =>
    simp only [List.nil_append] at huniq hf ⊢
    cases fuel with
    | zero =>
      rw [List.length_append] at hf
      omega
    | succ f =>
      rw [replaceGo_succ,
        if_pos (List.isPrefixOf_iff_prefix.mpr (List.prefix_append pat b)),
        List.drop_left]
      have hnb : ∀ p, ¬ isOccAt pat b p := by
        intro p hp
        have h1 : isOccAt pat (pat ++ b) (pat.length + p) :=
          (isOccAt_append_right pat pat b p).mpr hp
        have h0 : isOccAt pat (pat ++ b) 0 :=
          (isOccAt_zero_iff pat (pat ++ b)).mpr (List.prefix_append pat b)
        have := huniq _ _ h1 h0
        omega
      rw [List.length_append] at hf
      rw [replaceGo_of_no_occ pat rep f b (by omega) hnb]
  | cons c a2 ih =>
    cases fuel with
    | zero =>
      simp only [List.cons_append, List.length_cons] at hf
      omega
    | succ f =>
      rw [replaceGo_succ]
      have hnp : ¬ pat.isPrefixOf (c :: a2 ++ pat ++ b) := by
        intro hp
        have h0 : isOccAt pat (c :: a2 ++ pat ++ b) 0 :=
          (isOccAt_zero_iff pat _).mpr (List.isPrefixOf_iff_prefix.mp hp)
        have h1 : isOccAt pat (c :: a2 ++ pat ++ b) (c :: a2).length :=
          isOccAt_split_mid pat (c :: a2) b
        have := huniq _ _ h0 h1
        simp at this
      rw [if_neg hnp]
      simp only [List.cons_append]
      have huniq2 : AtMostOneOcc pat (a2 ++ pat ++ b) := by
        intro p q hp hq
        have hc := huniq (p + 1) (q + 1)
          ((isOccAt_cons pat _ c p).mpr (by simpa using hp))
          ((isOccAt_cons pat _ c q).mpr (by simpa using hq))
        omega
      have hrec := ih f
        (by simp only [List.cons_append, List.length_cons] at hf ⊢; omega) huniq2
      show c :: replaceGo pat rep f (a2 ++ pat ++ b) = c :: a2 ++ rep ++ b
      rw [hrec]
      simp

theorem replaceAll_splice (pat rep a b : List Char) (hpat : pat ≠ [])
    (huniq : AtMostOneOcc pat (a ++ pat ++ b)) :
    replaceAll (a ++ pat ++ b) pat rep = a ++ rep ++ b :=
  replaceGo_splice pat rep hpat a b _ le_rfl huniq

/-! ## Structure of scanner matches -/

/-- The literal ` integrity="` that precedes every inserted token. -/
def intLit : List Char := " integrity=\"".toList

theorem mkIntegrity_eq (tok : List Char) : mkIntegrity tok = intLit ++ tok ++ ['"'] := rfl

theorem srcClose_spec (r : List Char) (m : Nat) (h : srcClose r = some m) :
    ∃ X rest2, r = X ++ '.' :: 'j' :: 's' :: '"' :: rest2 ∧ X.length = m ∧ 1 ≤ m := by
  induction r generalizing m with
  | nil => simp [srcClose] at h
  | cons c rest ih =>
    rw [srcClose] at h
    by_cases hc : c = '\n'
    · rw [if_pos hc] at h
      simp at h
    rw [if_neg hc] at h
    by_cases h4 : rest.take 4 = ['.', 'j', 's', '"']
    · rw [if_pos h4] at h
      obtain rfl : (1 : Nat) = m := by simpa using h
      refine ⟨[c], rest.drop 4, ?_, rfl, le_rfl⟩
      have hr : rest = ['.', 'j', 's', '"'] ++ rest.drop 4 := by
        conv_lhs => rw [← List.take_append_drop 4 rest, h4]
      simp only [List.cons_append, List.nil_append]
      rw [hr]
      rfl
    · rw [if_neg h4] at h
      obtain ⟨m2, hm2, rfl⟩ : ∃ m2, srcClose rest = some m2 ∧ m2 + 1 = m := by
        cases hsc : srcClose rest with
        | none => rw [hsc] at h; simp at h
        | some k =>
          rw [hsc] at h
          simp only [Option.map_some'] at h
          exact ⟨k, rfl, by simpa using h⟩
      obtain ⟨X, r2, hr, hX, hm1⟩ := ih m2 hm2
      refine ⟨c :: X, r2, by simp [hr], by simp [hX], by omega⟩

theorem matchAt_spec (s : List Char) (l1 l2 : Nat) (h : matchAt s = some (l1, l2)) :
    s.take l1 = srcLit ++ (s.drop 5).take l2 ++ ['"'] ∧
    (∃ X, (s.drop 5).take l2 = X ++ jsSuffix ∧ X ≠ []) ∧
    10 ≤ l1 ∧ l1 = l2 + 6 ∧ 5 ≤ s.length := by
  rw [matchAt] at h
  by_cases h5 : s.take 5 = srcLit
  · rw [if_pos h5] at h
    obtain ⟨m, hm, hl⟩ : ∃ m, srcClose (s.drop 5) = some m ∧ (m + 9, m + 3) = (l1, l2) := by
      cases hsc : srcClose (s.drop 5) with
      | none => rw [hsc] at h; simp at h
      | some k =>
        rw [hsc] at h
        simp only [Option.map_some'] at h
        exact ⟨k, rfl, by simpa using h⟩
    obtain ⟨rfl, rfl⟩ : m + 9 = l1 ∧ m + 3 = l2 := Prod.mk.inj hl
    obtain ⟨X, r2, hr, hX, hm1⟩ := srcClose_spec (s.drop 5) m hm
    have hlen5 : 5 ≤ s.length := by
      have := congrArg List.length h5
      simp only [List.length_take, srcLit] at this
      simp at this
      omega
    have htake : ∀ k, (s.drop 5).take k = (X ++ '.' :: 'j' :: 's' :: '"' :: r2).take k := by
      intro k; rw [hr]
    constructor
    · have h9 : m + 9 = 5 + (m + 4) := by omega
      rw [h9, List.take_add, h5, htake (m + 4), ← hX, List.take_append,
        htake (X.length + 3), List.take_append]
      simp
    refine ⟨⟨X, ?_, ?_⟩, by omega, by omega, hlen5⟩
    · rw [htake (m + 3), ← hX, List.take_append]
      rfl
    · intro hXnil
      rw [hXnil] at hX
      simp at hX
      omega
  · rw [if_neg h5] at h
    simp at h

/-! ## Blocks: the template as segments, matches and inserted tokens -/

/-- One block of the stamped template: the segment before a match, the match's
attribute text, and the inserted integrity text when the reference was stamped. -/
def blockText (b : RefMatch × Option (List Char)) : List Char :=
  b.1.pre ++ b.1.g1 ++ (b.2.getD [])

/-- A block list rendered back into text, followed by the trailing segment. -/
def renderBlocks (bs : List (RefMatch × Option (List Char))) (tl : List Char) : List Char :=
  (bs.map blockText).flatten ++ tl

/-- Matches as blocks with no insertion. -/
def noStamp (ms : List RefMatch) : List (RefMatch × Option (List Char)) :=
  ms.map (fun m => (m, none))

theorem renderBlocks_nil (tl : List Char) : renderBlocks [] tl = tl := by
  simp [renderBlocks]

theorem renderBlocks_cons (b : RefMatch × Option (List Char))
    (bs : List (RefMatch × Option (List Char))) (tl : List Char) :
    renderBlocks (b :: bs) tl = blockText b ++ renderBlocks bs tl := by
  simp [renderBlocks]

theorem renderBlocks_append (bs1 bs2 : List (RefMatch × Option (List Char)))
    (tl : List Char) :
    renderBlocks (bs1 ++ bs2) tl = (bs1.map blockText).flatten ++ renderBlocks bs2 tl := by
  simp [renderBlocks]

theorem scanGo_reconstruct (fuel : Nat) (s seg : List Char) (hf : s.length ≤ fuel) :
    renderBlocks (noStamp (scanGo fuel s seg).1) (scanGo fuel s seg).2 = seg.reverse ++ s := by
  induction fuel generalizing s seg with
  | zero => simp [scanGo, renderBlocks, noStamp]
  | succ f ih =>
    cases hm : matchAt s with
    | some p =>
      obtain ⟨l1, l2⟩ := p
      obtain ⟨-, -, hl1, -, hlen⟩ := matchAt_spec s l1 l2 hm
      simp only [scanGo, hm]
      have hfu : (s.drop l1).length ≤ f := by
        simp only [List.length_drop]
        omega
      have := ih (s.drop l1) [] hfu
      simp only [noStamp, List.map_cons, renderBlocks, List.map_cons, List.flatten_cons,
        blockText, Option.getD_none, List.append_nil] at this ⊢
      rw [List.append_assoc, this]
      simp only [List.reverse_nil, List.nil_append, List.append_assoc]
      rw [List.take_append_drop]
    | none =>
      cases s with
      | nil => simp [scanGo, hm, renderBlocks, noStamp]
      | cons c t =>
        simp only [scanGo, hm]
        have := ih t (c :: seg) (by simp at hf; omega)
        rw [this]
        simp

theorem scanGo_shape (fuel : Nat) (s seg : List Char) :
    ∀ m ∈ (scanGo fuel s seg).1,
      m.g1 = srcLit ++ m.g2 ++ ['"'] ∧ ∃ X, m.g2 = X ++ jsSuffix ∧ X ≠ [] := by
  induction fuel generalizing s seg with
  | zero => simp [scanGo]
  | succ f ih =>
    cases hm : matchAt s with
    | some p =>
      obtain ⟨l1, l2⟩ := p
      obtain ⟨hg1, hg2, -, -, -⟩ := matchAt_spec s l1 l2 hm
      simp only [scanGo, hm]
      intro m hmem
      rcases List.mem_cons.mp hmem with rfl | hmem2
      · exact ⟨by simpa using hg1, hg2⟩
      · exact ih (s.drop l1) [] m hmem2
    | none =>
      cases s with
      | nil => simp [scanGo, hm]
      | cons c t =>
        simp only [scanGo, hm]
        exact ih t (c :: seg)

theorem findMatches_reconstruct (tmpl : List Char) :
    renderBlocks (noStamp (findMatches tmpl)) (lastSeg tmpl) = tmpl := by
  have := scanGo_reconstruct tmpl.length tmpl [] le_rfl
  simpa [findMatches, lastSeg] using this

theorem findMatches_shape (tmpl : List Char) :
    ∀ m ∈ findMatches tmpl,
      m.g1 = srcLit ++ m.g2 ++ ['"'] ∧ ∃ X, m.g2 = X ++ jsSuffix ∧ X ≠ [] :=
  scanGo_shape tmpl.length tmpl []

/-! ## Shapes of reference texts and inserted integrity texts -/

/-- A matched attribute text whose path is quote-free: `src="<path>"` with the path
ending in `.js` and containing no double quote. -/
def RefShape (g : List Char) : Prop :=
  ∃ P, g = srcLit ++ P ++ ['"'] ∧ '"' ∉ P ∧ ∃ X, P = X ++ jsSuffix

/-- An inserted integrity text ` integrity="<tok>"` whose token contains neither a
double quote nor an equals sign. -/
def InsShape (ins : List Char) : Prop :=
  ∃ T, ins = intLit ++ T ++ ['"'] ∧ '"' ∉ T ∧ '=' ∉ T

theorem getElem?_append3_left (a b w : List Char) (i : Nat) (h : i < a.length) :
    (a ++ b ++ w)[i]? = a[i]? := by
  rw [List.getElem?_append_left (by simp only [List.length_append]; omega),
    List.getElem?_append_left h]

theorem getElem?_append3_mid (a b w : List Char) (j : Nat) (h : j < b.length) :
    (a ++ b ++ w)[a.length + j]? = b[j]? := by
  rw [List.getElem?_append_left (by simp only [List.length_append]; omega),
    List.getElem?_append_right (by omega)]
  congr 1
  omega

theorem getElem?_append3_right (a b w : List Char) (j : Nat) :
    (a ++ b ++ w)[a.length + b.length + j]? = w[j]? := by
  rw [List.getElem?_append_right (by simp only [List.length_append]; omega)]
  congr 1
  simp only [List.length_append]
  omega

theorem refShape_len (g : List Char) (hg : RefShape g) : 9 ≤ g.length := by
  obtain ⟨P, rfl, -, X, rfl⟩ := hg
  have h1 : srcLit.length = 5 := rfl
  have h2 : jsSuffix.length = 3 := rfl
  simp only [List.length_append, h1, h2, List.length_cons, List.length_nil]
  omega

theorem refShape_ne_nil (g : List Char) (hg : RefShape g) : g ≠ [] := by
  intro h
  have := refShape_len g hg
  rw [h] at this
  simp at this

theorem refShape_get0 (g : List Char) (hg : RefShape g) : g[0]? = some 's' := by
  obtain ⟨P, rfl, -, -⟩ := hg
  rw [getElem?_append3_left srcLit P ['"'] 0 (by decide)]
  decide

theorem refShape_get3 (g : List Char) (hg : RefShape g) : g[3]? = some '=' := by
  obtain ⟨P, rfl, -, -⟩ := hg
  rw [getElem?_append3_left srcLit P ['"'] 3 (by decide)]
  decide

theorem refShape_last (g : List Char) (hg : RefShape g) :
    g[g.length - 1]? = some '"' := by
  obtain ⟨P, rfl, -, -⟩ := hg
  have h1 : srcLit.length = 5 := rfl
  have hidx : (srcLit ++ P ++ ['"']).length - 1 = srcLit.length + P.length + 0 := by
    simp only [List.length_append, h1, List.length_cons, List.length_nil]
    omega
  rw [hidx, getElem?_append3_right]
  decide

theorem refShape_pen (g : List Char) (hg : RefShape g) :
    g[g.length - 2]? = some 's' := by
  obtain ⟨P, rfl, -, X, rfl⟩ := hg
  have h1 : srcLit.length = 5 := rfl
  have h2 : jsSuffix.length = 3 := rfl
  have hidx : (srcLit ++ (X ++ jsSuffix) ++ ['"']).length - 2 =
      srcLit.length + (X.length + 2) := by
    simp only [List.length_append, h1, h2, List.length_cons, List.length_nil]
    omega
  rw [hidx, getElem?_append3_mid srcLit (X ++ jsSuffix) ['"'] (X.length + 2)
    (by simp only [List.length_append, h2]; omega)]
  rw [List.getElem?_append_right (by omega)]
  have h3 : X.length + 2 - X.length = 2 := by omega
  rw [h3]
  decide

theorem refShape_quote (g : List Char) (hg : RefShape g) :
    ∀ i, g[i]? = some '"' → i = 4 ∨ i = g.length - 1 := by
  obtain ⟨P, rfl, hQ, -⟩ := hg
  have h1 : srcLit.length = 5 := rfl
  have hlen : (srcLit ++ P ++ ['"']).length = P.length + 6 := by
    simp only [List.length_append, h1, List.length_cons, List.length_nil]
    omega
  intro i hi
  rcases Nat.lt_or_ge i 5 with h5 | h5
  · rw [getElem?_append3_left srcLit P ['"'] i (by rw [h1]; omega)] at hi
    have hd : ∀ j, j < 5 → srcLit[j]? = some '"' → j = 4 := by decide
    exact Or.inl (hd i h5 hi)
  rcases Nat.lt_or_ge i (5 + P.length) with hP | hP
  · exfalso
    have hj : i = srcLit.length + (i - 5) := by omega
    rw [hj, getElem?_append3_mid srcLit P ['"'] (i - 5) (by omega)] at hi
    exact hQ (List.getElem?_mem hi)
  rcases Nat.lt_or_ge i (6 + P.length) with hE | hE
  · right
    rw [hlen]
    omega
  · exfalso
    have : (srcLit ++ P ++ ['"'])[i]? = none := List.getElem?_eq_none (by rw [hlen]; omega)
    rw [this] at hi
    exact Option.noConfusion hi

theorem insShape_len (ins : List Char) (hins : InsShape ins) : 13 ≤ ins.length := by
  obtain ⟨T, rfl, -, -⟩ := hins
  have h1 : intLit.length = 12 := rfl
  simp only [List.length_append, h1, List.length_cons, List.length_nil]
  omega

theorem insShape_get7 (ins : List Char) (hins : InsShape ins) : ins[7]? = some 'i' := by
  obtain ⟨T, rfl, -, -⟩ := hins
  rw [getElem?_append3_left intLit T ['"'] 7 (by decide)]
  decide

theorem insShape_get10 (ins : List Char) (hins : InsShape ins) : ins[10]? = some '=' := by
  obtain ⟨T, rfl, -, -⟩ := hins
  rw [getElem?_append3_left intLit T ['"'] 10 (by decide)]
  decide

theorem insShape_get11 (ins : List Char) (hins : InsShape ins) : ins[11]? = some '"' := by
  obtain ⟨T, rfl, -, -⟩ := hins
  rw [getElem?_append3_left intLit T ['"'] 11 (by decide)]
  decide

theorem insShape_last (ins : List Char) (hins : InsShape ins) :
    ins[ins.length - 1]? = some '"' := by
  obtain ⟨T, rfl, -, -⟩ := hins
  have h1 : intLit.length = 12 := rfl
  have hidx : (intLit ++ T ++ ['"']).length - 1 = intLit.length + T.length + 0 := by
    simp only [List.length_append, h1, List.length_cons, List.length_nil]
    omega
  rw [hidx, getElem?_append3_right]
  decide

theorem insShape_eq (ins : List Char) (hins : InsShape ins) :
    ∀ i, ins[i]? = some '=' → i = 10 := by
  obtain ⟨T, rfl, -, hT⟩ := hins
  have h1 : intLit.length = 12 := rfl
  have hlen : (intLit ++ T ++ ['"']).length = T.length + 13 := by
    simp only [List.length_append, h1, List.length_cons, List.length_nil]
    omega
  intro i hi
  rcases Nat.lt_or_ge i 12 with h12 | h12
  · rw [getElem?_append3_left intLit T ['"'] i (by rw [h1]; omega)] at hi
    have hd : ∀ j, j < 12 → intLit[j]? = some '=' → j = 10 := by decide
    exact hd i h12 hi
  rcases Nat.lt_or_ge i (12 + T.length) with hT2 | hT2
  · exfalso
    have hj : i = intLit.length + (i - 12) := by omega
    rw [hj, getElem?_append3_mid intLit T ['"'] (i - 12) (by omega)] at hi
    exact hT (List.getElem?_mem hi)
  rcases Nat.lt_or_ge i (13 + T.length) with hE | hE
  · exfalso
    have hj : i = intLit.length + T.length + 0 := by rw [h1]; omega
    rw [hj, getElem?_append3_right] at hi
    exact absurd hi (by decide)
  · exfalso
    have : (intLit ++ T ++ ['"'])[i]? = none := List.getElem?_eq_none (by rw [hlen]; omega)
    rw [this] at hi
    exact Option.noConfusion hi

theorem insShape_quote (ins : List Char) (hins : InsShape ins) :
    ∀ i, ins[i]? = some '"' → i = 11 ∨ i = ins.length - 1 := by
  obtain ⟨T, rfl, hT, -⟩ := hins
  have h1 : intLit.length = 12 := rfl
  have hlen : (intLit ++ T ++ ['"']).length = T.length + 13 := by
    simp only [List.length_append, h1, List.length_cons, List.length_nil]
    omega
  intro i hi
  rcases Nat.lt_or_ge i 12 with h12 | h12
  · rw [getElem?_append3_left intLit T ['"'] i (by rw [h1]; omega)] at hi
    have hd : ∀ j, j < 12 → intLit[j]? = some '"' → j = 11 := by decide
    exact Or.inl (hd i h12 hi)
  rcases Nat.lt_or_ge i (12 + T.length) with hT2 | hT2
  · exfalso
    have hj : i = intLit.length + (i - 12) := by omega
    rw [hj, getElem?_append3_mid intLit T ['"'] (i - 12) (by omega)] at hi
    exact hT (List.getElem?_mem hi)
  rcases Nat.lt_or_ge i (13 + T.length) with hE | hE
  · right
    rw [hlen]
    omega
  · exfalso
    have : (intLit ++ T ++ ['"'])[i]? = none := List.getElem?_eq_none (by rw [hlen]; omega)
    rw [this] at hi
    exact Option.noConfusion hi

/-! ## Inserting an integrity text preserves reference occurrences -/

/-- Every occurrence of a quote-free-path reference text in `u ++ ins ++ v` lies
entirely inside `u` or entirely inside `v`: the characters of an inserted
` integrity="<tok>"` text cannot take part in a `src="...js"` occurrence. -/
theorem occ_of_occ_insert (g ins u v : List Char) (hg : RefShape g) (hins : InsShape ins)
    (p : Nat) (h : isOccAt g (u ++ ins ++ v) p) :
    (p + g.length ≤ u.length ∧ isOccAt g (u ++ v) p) ∨
    (u.length + ins.length ≤ p ∧ isOccAt g (u ++ v) (p - ins.length)) := by
  have hgnil := refShape_ne_nil g hg
  have hglen := refShape_len g hg
  have hilen := insShape_len ins hins
  have hle := isOccAt_le_length g (u ++ ins ++ v) p hgnil h
  have hpoint := isOccAt_getElem g (u ++ ins ++ v) p hgnil h
  simp only [List.length_append] at hle
  rcases le_or_lt (p + g.length) u.length with hA | hA
  · left
    refine ⟨hA, ?_⟩
    have h2 : isOccAt g (u ++ ins) p :=
      (isOccAt_append_left g (u ++ ins) v p
        (by simp only [List.length_append]; omega)).mp h
    have h3 : isOccAt g u p := (isOccAt_append_left g u ins p hA).mp h2
    exact (isOccAt_append_left g u v p hA).mpr h3
  rcases le_or_lt (u.length + ins.length) p with hB | hB
  · right
    refine ⟨hB, ?_⟩
    have hrw : p = (u ++ ins).length + (p - u.length - ins.length) := by
      simp only [List.length_append]
      omega
    rw [hrw] at h
    have h1 := (isOccAt_append_right g (u ++ ins) v _).mp h
    have h2 := (isOccAt_append_right g u v (p - u.length - ins.length)).mpr h1
    have hpos : u.length + (p - u.length - ins.length) = p - ins.length := by omega
    rwa [hpos] at h2
  exfalso
  rcases le_or_lt u.length p with hD | hD
  · -- the occurrence starts inside the inserted text
    rcases Nat.lt_or_ge (p + 3) (u.length + ins.length) with hD1 | hD1
    · have e3 : (u ++ ins ++ v)[p + 3]? = g[3]? := hpoint 3 (by omega)
      have hj : p + 3 = u.length + (p + 3 - u.length) := by omega
      rw [hj, getElem?_append3_mid u ins v _ (by omega), refShape_get3 g hg] at e3
      have h10 := insShape_eq ins hins _ e3
      have e0 : (u ++ ins ++ v)[p + 0]? = g[0]? := hpoint 0 (by omega)
      have hj0 : p + 0 = u.length + 7 := by omega
      rw [hj0, getElem?_append3_mid u ins v 7 (by omega), insShape_get7 ins hins,
        refShape_get0 g hg] at e0
      exact absurd e0 (by decide)
    · have eq1 : (u ++ ins ++ v)[p + (u.length + ins.length - 1 - p)]? =
          g[u.length + ins.length - 1 - p]? := hpoint _ (by omega)
      have hj2 : p + (u.length + ins.length - 1 - p) = u.length + (ins.length - 1) := by
        omega
      rw [hj2, getElem?_append3_mid u ins v _ (by omega), insShape_last ins hins] at eq1
      have hq := refShape_quote g hg _ eq1.symm
      rcases hq with h4 | hlast <;> omega
  · -- the occurrence starts before the insertion point and crosses it
    rcases Nat.lt_or_ge (p + g.length - 1) (u.length + ins.length) with hE1 | hE2
    · have eqq : (u ++ ins ++ v)[p + (g.length - 1)]? = g[g.length - 1]? :=
        hpoint _ (by omega)
      have hj3 : p + (g.length - 1) = u.length + (p + g.length - 1 - u.length) := by omega
      rw [hj3, getElem?_append3_mid u ins v _ (by omega), refShape_last g hg] at eqq
      have hq := insShape_quote ins hins _ eqq
      rcases hq with h11 | hlast2
      · have eqp : (u ++ ins ++ v)[p + (g.length - 2)]? = g[g.length - 2]? :=
          hpoint _ (by omega)
        have hj4 : p + (g.length - 2) = u.length + 10 := by omega
        rw [hj4, getElem?_append3_mid u ins v 10 (by omega), insShape_get10 ins hins,
          refShape_pen g hg] at eqp
        exact absurd eqp (by decide)
      · have eq11 : (u ++ ins ++ v)[p + (u.length - p + 11)]? =
            g[u.length - p + 11]? := hpoint _ (by omega)
        have hj5 : p + (u.length - p + 11) = u.length + 11 := by omega
        rw [hj5, getElem?_append3_mid u ins v 11 (by omega),
          insShape_get11 ins hins] at eq11
        have hq2 := refShape_quote g hg _ eq11.symm
        rcases hq2 with ha | hb <;> omega
    · have eq11 : (u ++ ins ++ v)[p + (u.length - p + 11)]? =
          g[u.length - p + 11]? := hpoint _ (by omega)
      have hj5 : p + (u.length - p + 11) = u.length + 11 := by omega
      rw [hj5, getElem?_append3_mid u ins v 11 (by omega),
        insShape_get11 ins hins] at eq11
      have hq2 := refShape_quote g hg _ eq11.symm
      rcases hq2 with ha | hb <;> omega

theorem atMostOne_insert (g ins u v : List Char) (hg : RefShape g) (hins : InsShape ins)
    (h : AtMostOneOcc g (u ++ v)) : AtMostOneOcc g (u ++ ins ++ v) := by
  have hglen := refShape_len g hg
  intro p q hp hq
  rcases occ_of_occ_insert g ins u v hg hins p hp with ⟨hp1, hp2⟩ | ⟨hp1, hp2⟩ <;>
    rcases occ_of_occ_insert g ins u v hg hins q hq with ⟨hq1, hq2⟩ | ⟨hq1, hq2⟩
  · exact h p q hp2 hq2
  · have := h p (q - ins.length) hp2 hq2
    omega
  · have := h (p - ins.length) q hp2 hq2
    omega
  · have := h (p - ins.length) (q - ins.length) hp2 hq2
    omega

/-! ## The inserted integrity text has the right shape -/

theorem wordToBytes_lt (x : Nat) : ∀ b ∈ wordToBytes x, b < 256 := by
  intro b hb
  simp only [wordToBytes, List.mem_cons, List.not_mem_nil, or_false] at hb
  rcases hb with rfl | rfl | rfl | rfl | rfl | rfl | rfl | rfl <;>
    exact Nat.mod_lt _ (by norm_num)

theorem sha384Bytes_length (msg : List Nat) : (sha384Bytes msg).length = 48 := by
  simp [sha384Bytes, wordToBytes]

theorem sha384Bytes_lt (msg : List Nat) : ∀ b ∈ sha384Bytes msg, b < 256 := by
  intro b hb
  simp only [sha384Bytes, List.mem_append] at hb
  rcases hb with ((((h | h) | h) | h) | h) | h <;> exact wordToBytes_lt _ b h

theorem base64Alphabet_getD_mem (i : Nat) (h : i < 64) :
    base64Alphabet.getD i '?' ∈ base64Alphabet := by
  have hlen : base64Alphabet.length = 64 := rfl
  rw [List.getD_eq_getElem?_getD, List.getElem?_eq_getElem (by omega)]
  exact List.getElem_mem (by omega)

theorem base64Encode_mem : ∀ bs : List Nat, bs.length % 3 = 0 → (∀ b ∈ bs, b < 256) →
    ∀ c ∈ base64Encode bs, c ∈ base64Alphabet
  | [], _, _ => by simp [base64Encode]
  | [b0], h3, _ => by simp at h3
  | [b0, b1], h3, _ => by simp at h3
  | b0 :: b1 :: b2 :: rest, h3, hlt => by
    have hrest : rest.length % 3 = 0 := by
      simp only [List.length_cons] at h3
      omega
    have hb0 : b0 < 256 := hlt b0 (by simp)
    have hb1 : b1 < 256 := hlt b1 (by simp)
    have hb2 : b2 < 256 := hlt b2 (by simp)
    intro c hc
    simp only [base64Encode, List.mem_cons] at hc
    rcases hc with rfl | rfl | rfl | rfl | hc
    · exact base64Alphabet_getD_mem _ (by omega)
    · exact base64Alphabet_getD_mem _ (by omega)
    · exact base64Alphabet_getD_mem _ (by omega)
    · exact base64Alphabet_getD_mem _ (by omega)
    · exact base64Encode_mem rest hrest (fun b hb => hlt b (by simp [hb])) c hc

theorem base64Alphabet_ok : ∀ c ∈ base64Alphabet, c ≠ '"' ∧ c ≠ '=' := by decide

theorem sriOf_no_quote_eq (content : List Char) :
    '"' ∉ sriOf content ∧ '=' ∉ sriOf content := by
  have hdig := base64Encode_mem (sha384Bytes (content.map Char.toNat))
    (by rw [sha384Bytes_length]) (sha384Bytes_lt _)
  constructor <;> intro hmem <;> rw [sriOf] at hmem <;>
    rcases List.mem_append.mp hmem with h | h
  · exact absurd h (by decide)
  · exact absurd rfl (base64Alphabet_ok _ (hdig _ h)).1
  · exact absurd h (by decide)
  · exact absurd rfl (base64Alphabet_ok _ (hdig _ h)).2

/-! ## The stamping pass as a block rewrite -/

/-- The integrity text inserted for a matched reference, when the referenced file
(resolved with `lstrip("/")` under the static root) exists. -/
def tokenFor (fs : FS) (m : RefMatch) : Option (List Char) :=
  (file_to_sri fs (scriptRel m.g2)).map mkIntegrity

/-- All matches paired with their actual insertions. -/
def stampedBlocks (fs : FS) (ms : List RefMatch) : List (RefMatch × Option (List Char)) :=
  ms.map (fun m => (m, tokenFor fs m))

theorem stampOne_eq (fs : FS) (acc : List Char) (m : RefMatch) :
    stampOne fs acc m =
      match tokenFor fs m with
      | some ins => replaceAll acc m.g1 (m.g1 ++ ins)
      | none => acc := by
  rw [stampOne, tokenFor]
  cases file_to_sri fs (scriptRel m.g2) <;> simp [Option.map_some']

theorem stampOne_none (fs : FS) (acc : List Char) (m : RefMatch)
    (h : tokenFor fs m = none) : stampOne fs acc m = acc := by
  rw [stampOne_eq, h]

theorem stampOne_some (fs : FS) (acc : List Char) (m : RefMatch) (ins : List Char)
    (h : tokenFor fs m = some ins) :
    stampOne fs acc m = replaceAll acc m.g1 (m.g1 ++ ins) := by
  rw [stampOne_eq, h]

theorem insShape_tokenFor (fs : FS) (m : RefMatch) (ins : List Char)
    (h : tokenFor fs m = some ins) : InsShape ins := by
  rw [tokenFor, file_to_sri] at h
  cases hr : FS.read fs (scriptRel m.g2) with
  | none =>
    rw [hr] at h
    simp at h
  | some content =>
    rw [hr] at h
    simp only [Option.map_some'] at h
    obtain rfl := Option.some.inj h
    exact ⟨sriOf content, mkIntegrity_eq _, (sriOf_no_quote_eq content).1,
      (sriOf_no_quote_eq content).2⟩

theorem stamp_fold (fs : FS) :
    ∀ (todo : List RefMatch) (done : List (RefMatch × Option (List Char))) (tl : List Char),
    (∀ m ∈ todo, RefShape m.g1) →
    (∀ m ∈ todo, AtMostOneOcc m.g1 (renderBlocks (done ++ noStamp todo) tl)) →
    todo.foldl (stampOne fs) (renderBlocks (done ++ noStamp todo) tl)
      = renderBlocks (done ++ stampedBlocks fs todo) tl := by
  intro todo
  induction todo with
  | nil =>
    intro done tl _ _
    simp [noStamp, stampedBlocks]
  | cons m rest ih =>
    intro done tl hshape huniq
    have hsm : RefShape m.g1 := hshape m (by simp)
    have hshape2 : ∀ m2 ∈ rest, RefShape m2.g1 := fun m2 hm2 => hshape m2 (by simp [hm2])
    have hdecomp : renderBlocks (done ++ noStamp (m :: rest)) tl =
        ((done.map blockText).flatten ++ m.pre) ++ m.g1 ++ renderBlocks (noStamp rest) tl := by
      simp [renderBlocks, noStamp, blockText, List.append_assoc]
    rw [List.foldl_cons]
    cases htok : tokenFor fs m with
    | none =>
      rw [stampOne_none fs _ m htok]
      have hlist : done ++ noStamp (m :: rest) = (done ++ [(m, none)]) ++ noStamp rest := by
        simp [noStamp]
      have hlist2 : done ++ stampedBlocks fs (m :: rest)
          = (done ++ [(m, none)]) ++ stampedBlocks fs rest := by
        simp [stampedBlocks, htok]
      rw [hlist2, ← ih (done ++ [(m, none)]) tl hshape2 ?uniq2]
      · rw [hlist]
      case uniq2 =>
        intro m2 hm2
        have := huniq m2 (by simp [hm2])
        rwa [hlist] at this
    | some ins =>
      rw [stampOne_some fs _ m ins htok]
      have hins : InsShape ins := insShape_tokenFor fs m ins htok
      have huniqm : AtMostOneOcc m.g1 (renderBlocks (done ++ noStamp (m :: rest)) tl) :=
        huniq m (by simp)
      rw [hdecomp] at huniqm
      have hsplice := replaceAll_splice m.g1 (m.g1 ++ ins)
        ((done.map blockText).flatten ++ m.pre) (renderBlocks (noStamp rest) tl)
        (refShape_ne_nil _ hsm) huniqm
      rw [hdecomp, hsplice]
      have hnew : ((done.map blockText).flatten ++ m.pre) ++ (m.g1 ++ ins)
            ++ renderBlocks (noStamp rest) tl
          = renderBlocks ((done ++ [(m, some ins)]) ++ noStamp rest) tl := by
        simp [renderBlocks, noStamp, blockText, List.append_assoc]
      rw [hnew, ih (done ++ [(m, some ins)]) tl hshape2 ?uniq3]
      · simp [stampedBlocks, htok, List.append_assoc]
      case uniq3 =>
        intro m2 hm2
        have h0 := huniq m2 (by simp [hm2])
        rw [hdecomp] at h0
        have h1 := atMostOne_insert m2.g1 ins
          (((done.map blockText).flatten ++ m.pre) ++ m.g1)
          (renderBlocks (noStamp rest) tl) (hshape2 m2 hm2) hins ?h2
        · rw [← hnew]
          have hassoc : ((done.map blockText).flatten ++ m.pre) ++ (m.g1 ++ ins)
                ++ renderBlocks (noStamp rest) tl
              = (((done.map blockText).flatten ++ m.pre) ++ m.g1) ++ ins
                ++ renderBlocks (noStamp rest) tl := by
            simp [List.append_assoc]
          rwa [hassoc]
        case h2 =>
          have hassoc2 : ((done.map blockText).flatten ++ m.pre) ++ m.g1
                ++ renderBlocks (noStamp rest) tl
              = (((done.map blockText).flatten ++ m.pre) ++ m.g1)
                ++ renderBlocks (noStamp rest) tl := by
            simp [List.append_assoc]
          rwa [hassoc2] at h0

/-- The stamping pass, under the hypotheses that every matched path is quote-free and
every matched attribute text occurs exactly once: the result is the original template
with ` integrity="<sri>"` inserted after each reference whose file exists. -/
theorem stampScripts_render (fs : FS) (tmpl : List Char)
    (H1 : ∀ m ∈ findMatches tmpl, '"' ∉ m.g2)
    (H2 : ∀ m ∈ findMatches tmpl, occCount m.g1 tmpl = 1) :
    stampScripts fs tmpl
      = renderBlocks (stampedBlocks fs (findMatches tmpl)) (lastSeg tmpl) := by
  have hshape : ∀ m ∈ findMatches tmpl, RefShape m.g1 := by
    intro m hm
    obtain ⟨hg1, X, hg2, -⟩ := findMatches_shape tmpl m hm
    exact ⟨m.g2, hg1, H1 m hm, X, hg2⟩
  have hinit := findMatches_reconstruct tmpl
  have hfold := stamp_fold fs (findMatches tmpl) [] (lastSeg tmpl) hshape ?uniq
  · rw [stampScripts]
    have hnil : ([] : List (RefMatch × Option (List Char))) ++ noStamp (findMatches tmpl)
        = noStamp (findMatches tmpl) := List.nil_append _
    rw [hnil] at hfold
    rw [hinit] at hfold
    rw [hfold]
    simp
  case uniq =>
    intro m hm
    rw [List.nil_append, hinit]
    exact occCount_one_unique m.g1 tmpl (refShape_ne_nil _ (hshape m hm)) (H2 m hm)

/-! ## Congruence: what the pipeline reads -/

theorem dropWhile_ends_js (X : List Char) :
    ∃ Y, (X ++ jsSuffix).dropWhile (· = '/') = Y ++ jsSuffix := by
  induction X with
  | nil =>
    refine ⟨[], ?_⟩
    simp only [List.nil_append]
    decide
  | cons c X2 ih =>
    by_cases hc : c = '/'
    · simpa [List.dropWhile_cons, hc] using ih
    · exact ⟨c :: X2, by simp [List.dropWhile_cons, hc]⟩

theorem scriptRel_ends_js (tmpl : List Char) (m : RefMatch) (hm : m ∈ findMatches tmpl) :
    endsWithL (scriptRel m.g2) jsSuffix = true := by
  obtain ⟨-, X, hg2, -⟩ := findMatches_shape tmpl m hm
  rw [scriptRel, hg2]
  obtain ⟨Y, hY⟩ := dropWhile_ends_js X
  rw [hY, endsWithL, List.isSuffixOf_iff_suffix]
  exact List.suffix_append Y jsSuffix

/-- The stamping pass depends on the filesystem only through reads of `.js`-suffixed
paths (every consulted path is a matched path, which ends in `.js`). -/
theorem stampScripts_congr (fs1 fs2 : FS) (tmpl : List Char)
    (h : ∀ q : List Char, endsWithL q jsSuffix = true → FS.read fs1 q = FS.read fs2 q) :
    stampScripts fs1 tmpl = stampScripts fs2 tmpl := by
  rw [stampScripts, stampScripts]
  have main : ∀ ms : List RefMatch, (∀ m ∈ ms, endsWithL (scriptRel m.g2) jsSuffix = true) →
      ∀ acc, ms.foldl (stampOne fs1) acc = ms.foldl (stampOne fs2) acc := by
    intro ms hms
    induction ms with
    | nil => intro acc; rfl
    | cons m rest ih =>
      intro acc
      rw [List.foldl_cons, List.foldl_cons]
      have heq : stampOne fs1 acc m = stampOne fs2 acc m := by
        rw [stampOne, stampOne, file_to_sri, file_to_sri, h _ (hms m (by simp))]
      rw [heq]
      exact ih (fun m2 hm2 => hms m2 (by simp [hm2])) _
  exact main (findMatches tmpl) (fun m hm => scriptRel_ends_js tmpl m hm) tmpl

theorem FS.read_congr (fs1 fs2 : FS) (h : fs1.staticFiles = fs2.staticFiles)
    (q : List Char) : FS.read fs1 q = FS.read fs2 q := by
  rw [FS.read, FS.read, h]

theorem compiledPages_congr (fs1 fs2 : FS) (st : List Char)
    (h : fs1.staticFiles = fs2.staticFiles) :
    compiledPages fs1 st = compiledPages fs2 st := by
  rw [compiledPages, compiledPages, fragmentsOf, fragmentsOf, h]
  have hfun : (fun n => (n, replaceAll st contentsMarker ((FS.read fs1 n).getD [])))
      = fun n : List Char => (n, replaceAll st contentsMarker ((FS.read fs2 n).getD [])) := by
    funext n
    rw [FS.read_congr fs1 fs2 h]
  rw [hfun]

/-! ## Looking up compiled outputs -/

/-- The content written for page `n` by a compilation result (first write of that
name; all writes of one name carry the same content). -/
def outputsFor (r : CompileResult) (n : List Char) : Option (List Char) :=
  (r.outputs.find? (fun p => p.1 == n)).map Prod.snd

theorem find?_map_pages (names : List (List Char)) (f : List Char → List Char)
    (n : List Char) :
    (((names.map (fun k => (k, f k))).find? (fun p => p.1 == n)).map Prod.snd)
      = if n ∈ names then some (f n) else none := by
  induction names with
  | nil => simp
  | cons k rest ih =>
    simp only [List.map_cons]
    by_cases hk : k = n
    · subst hk
      rw [List.find?_cons_of_pos _ (by simp)]
      simp
    · rw [List.find?_cons_of_neg _ (by simp [hk])]
      rw [ih]
      have hme : (n ∈ k :: rest) ↔ (n ∈ rest) := by
        simp only [List.mem_cons]
        constructor
        · rintro (h | h)
          · exact absurd h.symm hk
          · exact h
        · exact Or.inr
      by_cases hr : n ∈ rest
      · rw [if_pos hr, if_pos (hme.mpr hr)]
      · rw [if_neg hr, if_neg (fun h => hr (hme.mp h))]

theorem foldl_map_not_mem (names : List (List Char)) (g : List Char → List Char)
    (f0 : List Char → Option (List Char)) (n : List Char) (hn : n ∉ names) :
    ((names.map (fun k => (k, g k))).foldl
        (fun f p => fun q => if q = p.1 then some p.2 else f q) f0) n = f0 n := by
  induction names generalizing f0 with
  | nil => rfl
  | cons k rest ih =>
    simp only [List.map_cons, List.foldl_cons]
    rw [ih _ (fun h => hn (by simp [h]))]
    have hnk : ¬ n = k := fun h => hn (by simp [h])
    simp [hnk]

theorem foldl_map_mem (names : List (List Char)) (g : List Char → List Char)
    (f0 : List Char → Option (List Char)) (n : List Char) (hn : n ∈ names) :
    ((names.map (fun k => (k, g k))).foldl
        (fun f p => fun q => if q = p.1 then some p.2 else f q) f0) n = some (g n) := by
  induction names generalizing f0 with
  | nil => simp at hn
  | cons k rest ih =>
    simp only [List.map_cons, List.foldl_cons]
    by_cases hr : n ∈ rest
    · exact ih _ hr
    · have hk : n = k := by
        rcases List.mem_cons.mp hn with h | h
        · exact h
        · exact absurd h hr
      subst hk
      rw [foldl_map_not_mem rest g _ n hr]
      simp

/-! ## Unfoldings of `compile_html` -/

theorem compile_html_none (fs : FS) (h : fs.masterTemplate = none) :
    compile_html fs = .error .templateMissing := by
  rw [compile_html, h]

theorem compile_html_some (fs : FS) (tmpl : List Char) (h : fs.masterTemplate = some tmpl) :
    compile_html fs =
      (if fs.compiledExists then
        .ok ⟨stampScripts fs tmpl, none, compiledPages fs (stampScripts fs tmpl)⟩
      else if fs.mkdirOk then
        .ok ⟨stampScripts fs tmpl, some 0o700, compiledPages fs (stampScripts fs tmpl)⟩
      else .error .outputDirUncreatable) := by
  rw [compile_html, h]

/-! ## Result inversion and split helpers -/

theorem compile_html_ok_inv (fs : FS) (r : CompileResult) (h : compile_html fs = .ok r) :
    ∃ tmpl, fs.masterTemplate = some tmpl ∧
      r = ⟨stampScripts fs tmpl, if fs.compiledExists then none else some 0o700,
        compiledPages fs (stampScripts fs tmpl)⟩ ∧
      (fs.compiledExists = true ∨ fs.mkdirOk = true) := by
  cases ht : fs.masterTemplate with
  | none =>
    rw [compile_html_none fs ht] at h
    exact Except.noConfusion h
  | some tmpl =>
    rw [compile_html_some fs tmpl ht] at h
    refine ⟨tmpl, rfl, ?_⟩
    by_cases hc : fs.compiledExists
    · rw [if_pos hc] at h
      rw [if_pos hc]
      exact ⟨(Except.ok.inj h).symm, Or.inl hc⟩
    · rw [if_neg hc] at h
      rw [if_neg hc]
      by_cases hm : fs.mkdirOk
      · rw [if_pos hm] at h
        exact ⟨(Except.ok.inj h).symm, Or.inr hm⟩
      · rw [if_neg hm] at h
        exact Except.noConfusion h

theorem occCount_one_split (pat s : List Char) (hp : pat ≠ [])
    (h : occCount pat s = 1) : ∃ u v, s = u ++ pat ++ v := by
  rw [occCount, List.countP_eq_length_filter] at h
  obtain ⟨a, ha⟩ := List.length_eq_one.mp h
  have hmem : a ∈ (List.range (s.length + 1)).filter
      (fun p => decide (isOccAt pat s p)) := by
    rw [ha]
    simp
  simp only [List.mem_filter, decide_eq_true_eq] at hmem
  obtain ⟨u, v, huv, -⟩ := (isOccAt_iff_split pat s a hp).mp hmem.2
  exact ⟨u, v, huv⟩

theorem read_isSome_of_mem_fst (fs : FS) (n : List Char)
    (hn : n ∈ fs.staticFiles.map Prod.fst) : ∃ c, FS.read fs n = some c := by
  rw [FS.read]
  obtain ⟨p, hp, rfl⟩ := List.mem_map.mp hn
  have hfind : (fs.staticFiles.find? (fun q => q.1 == p.1)).isSome := by
    rw [List.find?_isSome]
    exact ⟨p, hp, by simp⟩
  obtain ⟨q, hq⟩ := Option.isSome_iff_exists.mp hfind
  exact ⟨q.2, by rw [hq]; rfl⟩

theorem renderBlocks_split_at (bs1 : List (RefMatch × Option (List Char))) (m : RefMatch)
    (t : Option (List Char)) (bs2 : List (RefMatch × Option (List Char))) (tl : List Char) :
    renderBlocks (bs1 ++ (m, t) :: bs2) tl
      = ((bs1.map blockText).flatten ++ m.pre) ++ (m.g1 ++ t.getD [])
        ++ renderBlocks bs2 tl := by
  simp [renderBlocks, blockText, List.append_assoc]

/-- The text immediately after a match and its insertion: the next match's leading
segment, or the trailing segment when the match is the last one. -/
def followTextOf (l2 : List RefMatch) (tl : List Char) : List Char :=
  match l2 with
  | [] => tl
  | m2 :: _ => m2.pre

theorem renderBlocks_stamped_head (fs : FS) (l2 : List RefMatch) (tl : List Char) :
    ∃ w, renderBlocks (stampedBlocks fs l2) tl = followTextOf l2 tl ++ w := by
  cases l2 with
  | nil => exact ⟨[], by simp [stampedBlocks, renderBlocks, followTextOf]⟩
  | cons m2 l2t =>
    refine ⟨m2.g1 ++ (tokenFor fs m2).getD []
      ++ renderBlocks (stampedBlocks fs l2t) tl, ?_⟩
    simp [stampedBlocks, renderBlocks, blockText, followTextOf, List.append_assoc]

theorem renderBlocks_noStamp_head (l2 : List RefMatch) (tl : List Char) :
    ∃ w, renderBlocks (noStamp l2) tl = followTextOf l2 tl ++ w := by
  cases l2 with
  | nil => exact ⟨[], by simp [noStamp, renderBlocks, followTextOf]⟩
  | cons m2 l2t =>
    refine ⟨m2.g1 ++ renderBlocks (noStamp l2t) tl, ?_⟩
    simp [noStamp, renderBlocks, blockText, followTextOf, List.append_assoc]

theorem stampedBlocks_append (fs : FS) (l1 l2 : List RefMatch) :
    stampedBlocks fs (l1 ++ l2) = stampedBlocks fs l1 ++ stampedBlocks fs l2 := by
  simp [stampedBlocks]

theorem noStamp_append (l1 l2 : List RefMatch) :
    noStamp (l1 ++ l2) = noStamp l1 ++ noStamp l2 := by
  simp [noStamp]

/-! ## Concrete instances used by the claim exhibits and witnesses -/

instance : DecidableEq (Except CompileError CompileResult) := fun a b =>
  match a, b with
  | .ok x, .ok y => decidable_of_iff (x = y) (by simp)
  | .error e, .error f => decidable_of_iff (e = f) (by simp)
  | .ok _, .error _ => isFalse (by simp)
  | .error _, .ok _ => isFalse (by simp)

/-- A template in which the same reference text occurs twice, its file present. -/
def tmplC1 : List Char := "A src=\"a.js\" B src=\"a.js\" C".toList

def fsC1 : FS :=
  { masterTemplate := some tmplC1
    staticFiles := [("a.js".toList, "x".toList)]
    compiledExists := true
    mkdirOk := true
    compiled := fun _ => none }

/-- The integrity text actually inserted for the file content `x`. -/
def insC1 : String :=
  " integrity=\"sha384-11LCxR+6DimqGQVwqdQlPkQHegWNMpf6OlYw1b0BJiL5fCisrtMTtcg7uZDKp9qF\""

/-- What the code really produces for `tmplC1`: every occurrence carries TWO
identical integrity attributes. -/
def expectedC1 : List Char :=
  ("A src=\"a.js\"" ++ insC1 ++ insC1 ++ " B src=\"a.js\"" ++ insC1 ++ insC1 ++ " C").toList

/-- A template whose first match `src="x src="a.js"` references a non-existent file
(path `x src="a.js`), while the nested text `src="a.js"` is also a later match whose
file exists. -/
def tmplC2 : List Char := "src=\"x src=\"a.js\" and src=\"a.js\"".toList

def g1C2 : List Char := "src=\"x src=\"a.js\"".toList

def g2C2 : List Char := "x src=\"a.js".toList

def fsC2 : FS :=
  { masterTemplate := some tmplC2
    staticFiles := [("a.js".toList, "A".toList)]
    compiledExists := true
    mkdirOk := true
    compiled := fun _ => none }

/-- Same pathology with different names, for claim C6. -/
def tmplC6 : List Char := "src=\"y src=\"b.js\" tail src=\"b.js\"".toList

def g1C6 : List Char := "src=\"y src=\"b.js\"".toList

def g2C6 : List Char := "y src=\"b.js".toList

def fsC6 : FS :=
  { masterTemplate := some tmplC6
    staticFiles := [("b.js".toList, "B".toList)]
    compiledExists := true
    mkdirOk := true
    compiled := fun _ => none }

/-- A clean template: one existing reference, one missing reference, one placeholder. -/
def tmplW2 : List Char :=
  "<script src=\"w.js\"></script><script src=\"m.js\"></script>".toList

def fsW2 : FS :=
  { masterTemplate := some tmplW2
    staticFiles := [("w.js".toList, "W".toList)]
    compiledExists := true
    mkdirOk := true
    compiled := fun _ => none }

/-- A template with a single reference to a missing file. -/
def tmplW6 : List Char := "<p src=\"gone.js\"></p>".toList

def mW6 : RefMatch := ⟨"<p ".toList, "src=\"gone.js\"".toList, "gone.js".toList⟩

def fsW6 : FS :=
  { masterTemplate := some tmplW6
    staticFiles := []
    compiledExists := true
    mkdirOk := true
    compiled := fun _ => none }

/-- A template with one absolute-style reference `src="/app.js"`. -/
def tmplW10 : List Char := "<script src=\"/app.js\"></script>".toList

def mW10 : RefMatch := ⟨"<script ".toList, "src=\"/app.js\"".toList, "/app.js".toList⟩

def fsW10 : FS :=
  { masterTemplate := some tmplW10
    staticFiles := [("app.js".toList, "Z".toList)]
    compiledExists := true
    mkdirOk := true
    compiled := fun _ => none }

/-- Inputs for the idempotence witness. -/
def tmplW4 : List Char := "<q src=\"k.js\"></q>{contents}".toList

def fsW4 : FS :=
  { masterTemplate := some tmplW4
    staticFiles := [("k.js".toList, "K".toList), ("home.html".toList, "H".toList)]
    compiledExists := true
    mkdirOk := true
    compiled := fun _ => none }

/-- Inputs for the fragment-compilation witness. -/
def tmplW5 : List Char := "<x src=\"s.js\"></x>{contents}".toList

def fsW5 : FS :=
  { masterTemplate := some tmplW5
    staticFiles := [("s.js".toList, "S".toList), ("index.html".toList, "<p>hi</p>".toList)]
    compiledExists := true
    mkdirOk := true
    compiled := fun _ => none }

def stampedW5 : List Char :=
  ("<x src=\"s.js\" integrity=\"sha384-" ++
    "YtvxaZaNeE784DW5DqJ++H5n7d2jxBX6fF4i+dayoyYTQiChPIQaVUNaU/vCIuis\"></x>" ++
    "{contents}").toList

def rW5 : CompileResult :=
  ⟨stampedW5, none,
    [("index.html".toList,
      ("<x src=\"s.js\" integrity=\"sha384-" ++
        "YtvxaZaNeE784DW5DqJ++H5n7d2jxBX6fF4i+dayoyYTQiChPIQaVUNaU/vCIuis\"></x>" ++
        "<p>hi</p>").toList)]⟩

/-- A filesystem with no readable master template. -/
def fsW7a : FS :=
  { masterTemplate := none
    staticFiles := []
    compiledExists := true
    mkdirOk := true
    compiled := fun _ => none }

/-- A filesystem whose compiled directory is absent and cannot be created. -/
def fsW7b : FS :=
  { masterTemplate := some "{contents}".toList
    staticFiles := []
    compiledExists := false
    mkdirOk := false
    compiled := fun _ => none }

/-- A filesystem whose compiled directory is absent but creatable. -/
def fsW8 : FS :=
  { masterTemplate := some "{contents}".toList
    staticFiles := []
    compiledExists := false
    mkdirOk := true
    compiled := fun _ => none }

def rW8 : CompileResult := ⟨"{contents}".toList, some 0o700, []⟩

def rW4 : CompileResult :=
  ⟨("<q src=\"k.js\" integrity=\"sha384-" ++
      "T7M9w/F2fD+6UwHFroo/19zo7hp4wmg/O5ntTo7cueUKSEmx+ChplvQUpBY6qZuN\"></q>" ++
      "{contents}").toList, none,
    [("home.html".toList,
      ("<q src=\"k.js\" integrity=\"sha384-" ++
        "T7M9w/F2fD+6UwHFroo/19zo7hp4wmg/O5ntTo7cueUKSEmx+ChplvQUpBY6qZuN\"></q>" ++
        "H").toList)]⟩

/-! ## Auxiliary facts about the integrity hasher (claim C3 context) -/

/-- Format of `file_to_sri`: the literal `sha384-` followed by the base64 of the
SHA-384 digest of the file bytes. -/
theorem file_to_sri_format (fs : FS) (path content : List Char)
    (h : FS.read fs path = some content) :
    file_to_sri fs path
      = some ("sha384-".toList ++ base64Encode (sha384Bytes (content.map Char.toNat))) := by
  rw [file_to_sri, h]
  rfl

/-- The hasher is a function of the file bytes only: equal bytes give equal tokens,
regardless of which filesystem or path they come from. -/
theorem file_to_sri_deterministic (fs1 fs2 : FS) (p1 p2 content : List Char)
    (h1 : FS.read fs1 p1 = some content) (h2 : FS.read fs2 p2 = some content) :
    file_to_sri fs1 p1 = file_to_sri fs2 p2 := by
  rw [file_to_sri, file_to_sri, h1, h2]

/-! ## The claims -/

/-- Claim C1 (code-bug exhibit): the spec requires every occurrence of a repeated
script reference to receive exactly one integrity attribute.  Evaluating the
stamping pass on a template holding the same reference `src="a.js"` twice (file
present) shows each occurrence receives TWO identical integrity attributes: the
match list has two entries, the output holds four ` integrity="` insertions, and the
full output text is `expectedC1`, in which every `src="a.js"` is followed by the same
integrity text twice.  Cause: `re.finditer` runs over the original template while
`str.replace` is global, so the second identical match re-appends the attribute
after every occurrence. -/
theorem c1_repeated_reference_double_stamp :
    (findMatches tmplC1).length = 2 ∧
    occCount intLit (stampScripts fsC1 tmplC1) = 4 ∧
    stampScripts fsC1 tmplC1 = expectedC1 := by decide

/-- Claim C2 (counterexample): as stated, the claim fails.  In `tmplC2` the first
match is `src="x src="a.js"` whose resolved file (path `x src="a.js`) does not
exist, so it must be "left without an integrity attribute"; but its text is a
strict extension of the second match `src="a.js"`, whose global replacement also
fires inside the first match's span — the compiled output starts with the missing
reference's text immediately followed by ` integrity="`. -/
theorem c2_counterexample :
    (findMatches tmplC2).map RefMatch.g1 = [g1C2, "src=\"a.js\"".toList] ∧
    FS.read fsC2 (scriptRel g2C2) = none ∧
    isOccAt (g1C2 ++ intLit) (stampScripts fsC2 tmplC2) 0 := by decide

/-- Claim C2 (amended): provided every matched reference path is free of double
quotes and every matched attribute text occurs exactly once in the template, the
stamping pass rewrites the template into its segment/match decomposition where each
of the N matches whose resolved file exists carries exactly one inserted
` integrity="<sri>"` text and each of the M matches whose file is missing carries
none; the token for a match is exactly the SRI of its file's bytes, present if and
only if the file exists. -/
theorem c2_stamping_amended (fs : FS) (tmpl : List Char)
    (H1 : ∀ m ∈ findMatches tmpl, '"' ∉ m.g2)
    (H2 : ∀ m ∈ findMatches tmpl, occCount m.g1 tmpl = 1) :
    renderBlocks (noStamp (findMatches tmpl)) (lastSeg tmpl) = tmpl ∧
    stampScripts fs tmpl
        = renderBlocks (stampedBlocks fs (findMatches tmpl)) (lastSeg tmpl) ∧
    ∀ m ∈ findMatches tmpl,
      tokenFor fs m
        = (FS.read fs (scriptRel m.g2)).map (fun c => mkIntegrity (sriOf c)) := by
  refine ⟨findMatches_reconstruct tmpl, stampScripts_render fs tmpl H1 H2, ?_⟩
  intro m _
  rw [tokenFor, file_to_sri, Option.map_map]
  rfl

/-- Claim C4: compilation is idempotent.  A successful pass only writes to the
compiled directory; a second pass over the resulting filesystem (same template,
same static files, compiled directory now existing) succeeds and produces
byte-identical stamped template and compiled outputs. -/
theorem c4_idempotent (fs : FS) (r : CompileResult) (h : compile_html fs = .ok r) :
    ∃ r2, compile_html (applyResult fs r) = .ok r2 ∧
      r2.outputs = r.outputs ∧ r2.stamped = r.stamped := by
  obtain ⟨tmpl, ht, hr, -⟩ := compile_html_ok_inv fs r h
  have happ : (applyResult fs r).masterTemplate = some tmpl := ht
  have hst : stampScripts (applyResult fs r) tmpl = stampScripts fs tmpl :=
    stampScripts_congr _ _ tmpl (fun q _ => FS.read_congr _ _ rfl q)
  have hcp : compiledPages (applyResult fs r) (stampScripts fs tmpl)
      = compiledPages fs (stampScripts fs tmpl) := compiledPages_congr _ _ _ rfl
  refine ⟨⟨stampScripts fs tmpl, none, compiledPages fs (stampScripts fs tmpl)⟩,
    ?_, ?_, ?_⟩
  · rw [compile_html_some (applyResult fs r) tmpl happ,
      if_pos (show (applyResult fs r).compiledExists = true from rfl), hst, hcp]
  · rw [hr]
  · rw [hr]

/-- Claim C5: every compiled page equals the script-stamped master template with its
single `{contents}` placeholder replaced by exactly that fragment's bytes (first
conjunct); the written page overwrites any prior compiled file of that name (second
conjunct: the resulting compiled-directory content is determined by the new page,
whatever was there before); and a fragment's compiled output depends only on the
template, the `.js` files and that fragment's own content, never on another
fragment (third conjunct). -/
theorem c5_fragment_compilation (fs : FS) (r : CompileResult)
    (h : compile_html fs = .ok r)
    (hph : occCount contentsMarker r.stamped = 1) :
    (∀ n out, (n, out) ∈ r.outputs →
      ∃ frag u v, FS.read fs n = some frag ∧
        r.stamped = u ++ contentsMarker ++ v ∧ out = u ++ frag ++ v) ∧
    (∀ n, n ∈ fragmentsOf fs →
      (applyResult fs r).compiled n
        = some (replaceAll r.stamped contentsMarker ((FS.read fs n).getD []))) ∧
    (∀ fs2 r2, compile_html fs2 = .ok r2 →
      fs2.masterTemplate = fs.masterTemplate →
      (∀ q, endsWithL q jsSuffix = true → FS.read fs2 q = FS.read fs q) →
      fragmentsOf fs2 = fragmentsOf fs →
      ∀ n, FS.read fs2 n = FS.read fs n → outputsFor r2 n = outputsFor r n) := by
  obtain ⟨tmpl, ht, hr, -⟩ := compile_html_ok_inv fs r h
  have hstamped : r.stamped = stampScripts fs tmpl := by rw [hr]
  have houtputs : r.outputs = compiledPages fs (stampScripts fs tmpl) := by rw [hr]
  have hmarker : contentsMarker ≠ [] := by decide
  have huniq : AtMostOneOcc contentsMarker r.stamped :=
    occCount_one_unique _ _ hmarker hph
  refine ⟨?_, ?_, ?_⟩
  · intro n out hmem
    rw [houtputs, compiledPages] at hmem
    obtain ⟨k, hk, hkeq⟩ := List.mem_map.mp hmem
    obtain ⟨h1, h2⟩ := Prod.mk.inj hkeq
    subst h1
    have hks : k ∈ fs.staticFiles.map Prod.fst := by
      rw [fragmentsOf] at hk
      exact List.mem_of_mem_filter hk
    obtain ⟨frag, hfrag⟩ := read_isSome_of_mem_fst fs k hks
    obtain ⟨u, v, hsplit⟩ := occCount_one_split contentsMarker r.stamped hmarker hph
    refine ⟨frag, u, v, hfrag, hsplit, ?_⟩
    rw [← h2, hfrag]
    simp only [Option.getD_some]
    rw [hstamped] at hsplit
    rw [hsplit]
    rw [hstamped, hsplit] at huniq
    exact replaceAll_splice contentsMarker frag u v hmarker huniq
  · intro n hn
    show (r.outputs.foldl (fun f p => fun q => if q = p.1 then some p.2 else f q)
      fs.compiled) n = _
    rw [houtputs, compiledPages, ← hstamped]
    exact foldl_map_mem (fragmentsOf fs) _ fs.compiled n hn
  · intro fs2 r2 h2 htmp hjs hfrag n hreadn
    obtain ⟨tmpl2, ht2, hr2, -⟩ := compile_html_ok_inv fs2 r2 h2
    have htt : tmpl2 = tmpl := by
      have : some tmpl2 = some tmpl := by rw [← ht2, ← ht, htmp]
      exact Option.some.inj this
    subst htt
    have hstt : stampScripts fs2 tmpl2 = stampScripts fs tmpl2 :=
      stampScripts_congr fs2 fs tmpl2 hjs
    have e2 : outputsFor r2 n = if n ∈ fragmentsOf fs2
        then some (replaceAll (stampScripts fs2 tmpl2) contentsMarker
          ((FS.read fs2 n).getD []))
        else none := by
      rw [outputsFor, hr2]
      show ((compiledPages fs2 (stampScripts fs2 tmpl2)).find?
        (fun p => p.1 == n)).map Prod.snd = _
      rw [compiledPages]
      exact find?_map_pages _ _ n
    have e1 : outputsFor r n = if n ∈ fragmentsOf fs
        then some (replaceAll (stampScripts fs tmpl2) contentsMarker
          ((FS.read fs n).getD []))
        else none := by
      rw [outputsFor, hr]
      show ((compiledPages fs (stampScripts fs tmpl2)).find?
        (fun p => p.1 == n)).map Prod.snd = _
      rw [compiledPages]
      exact find?_map_pages _ _ n
    rw [e1, e2, hstt, hfrag, hreadn]

/-- Claim C6 (counterexample): as stated, the claim fails.  `tmplC6`'s first match
`src="y src="b.js"` references a missing file, so its text must be "left completely
untouched (no integrity attribute added)"; yet the compiled output prepends an
inserted ` integrity="` text right after it (third conjunct shows the original
template had no such text there), because the nested later match `src="b.js"` is
replaced globally, also inside the first match's span. -/
theorem c6_counterexample :
    (findMatches tmplC6).map RefMatch.g1 = [g1C6, "src=\"b.js\"".toList] ∧
    FS.read fsC6 (scriptRel g2C6) = none ∧
    isOccAt (g1C6 ++ intLit) (stampScripts fsC6 tmplC6) 0 ∧
    ¬ isOccAt (g1C6 ++ intLit) tmplC6 0 := by decide

/-- Claim C6 (amended): provided every matched reference path is free of double
quotes and every matched attribute text occurs exactly once in the template, every
match whose resolved file is missing is left completely untouched: the compiled
template contains its attribute text verbatim, immediately followed by the same
text that follows it in the original template (the next segment, or the trailing
segment when it is the last match) — no integrity attribute is inserted after it. -/
theorem c6_missing_untouched_amended (fs : FS) (tmpl : List Char)
    (H1 : ∀ m ∈ findMatches tmpl, '"' ∉ m.g2)
    (H2 : ∀ m ∈ findMatches tmpl, occCount m.g1 tmpl = 1)
    (l1 : List RefMatch) (m : RefMatch) (l2 : List RefMatch)
    (hsplit : findMatches tmpl = l1 ++ m :: l2)
    (hmiss : FS.read fs (scriptRel m.g2) = none) :
    (∃ u v, stampScripts fs tmpl
        = u ++ (m.g1 ++ followTextOf l2 (lastSeg tmpl)) ++ v) ∧
    (∃ u v, tmpl = u ++ (m.g1 ++ followTextOf l2 (lastSeg tmpl)) ++ v) := by
  have htok : tokenFor fs m = none := by
    rw [tokenFor, file_to_sri, hmiss]
    rfl
  have hconsS : stampedBlocks fs (m :: l2) = (m, tokenFor fs m) :: stampedBlocks fs l2 :=
    rfl
  have hconsN : noStamp (m :: l2) = (m, none) :: noStamp l2 := rfl
  constructor
  · obtain ⟨w, hw⟩ := renderBlocks_stamped_head fs l2 (lastSeg tmpl)
    refine ⟨((stampedBlocks fs l1).map blockText).flatten ++ m.pre, w, ?_⟩
    rw [stampScripts_render fs tmpl H1 H2, hsplit, stampedBlocks_append, hconsS, htok,
      renderBlocks_split_at, hw]
    simp [List.append_assoc]
  · have hrec := (findMatches_reconstruct tmpl).symm
    rw [hsplit, noStamp_append, hconsN, renderBlocks_split_at] at hrec
    obtain ⟨w, hw⟩ := renderBlocks_noStamp_head l2 (lastSeg tmpl)
    rw [hw] at hrec
    refine ⟨((noStamp l1).map blockText).flatten ++ m.pre, w, ?_⟩
    conv_lhs => rw [hrec]
    simp [List.append_assoc]

/-- Claim C7: a missing or unreadable master template makes the compilation pass
fail with the fatal template error; an absent compiled-output directory that cannot
be created makes it fail with the fatal directory error; and a failed pass never
produces a success result (so no compiled page is written — in this model pages
exist only in success results). -/
theorem c7_fatal_startup (fs : FS) :
    (fs.masterTemplate = none → compile_html fs = .error CompileError.templateMissing) ∧
    (fs.masterTemplate ≠ none → fs.compiledExists = false → fs.mkdirOk = false →
      compile_html fs = .error CompileError.outputDirUncreatable) ∧
    (∀ e : CompileError, compile_html fs = .error e →
      ∀ r : CompileResult, compile_html fs ≠ .ok r) := by
  refine ⟨compile_html_none fs, ?_, ?_⟩
  · intro ht hc hm
    cases htm : fs.masterTemplate with
    | none => exact absurd htm ht
    | some tmpl =>
      rw [compile_html_some fs tmpl htm, if_neg (by rw [hc]; simp),
        if_neg (by rw [hm]; simp)]
  · intro e he r hok
    rw [he] at hok
    exact Except.noConfusion hok

/-- Claim C8: after a successful pass the compiled-output directory exists; when it
was absent at compile time it was created with mode `0o700`, and when it already
existed no directory was created.  Pages are written only in the success result
whose construction has already ensured the directory, so every write happens with
the directory present. -/
theorem c8_output_dir (fs : FS) (r : CompileResult) (h : compile_html fs = .ok r) :
    (applyResult fs r).compiledExists = true ∧
    (fs.compiledExists = false → r.createdDirMode = some 0o700) ∧
    (fs.compiledExists = true → r.createdDirMode = none) := by
  obtain ⟨tmpl, -, hr, -⟩ := compile_html_ok_inv fs r h
  refine ⟨rfl, ?_, ?_⟩
  · intro hc
    rw [hr]
    simp [hc]
  · intro hc
    rw [hr]
    simp [hc]

/-- Claim C10: a matched reference whose quoted path begins with slashes is resolved
by stripping all leading slashes and joining the remainder to the static root
(`scriptRel` is exactly `dropWhile (= '/')`, and the read hypothesis consults the
stripped relative path), while the rewritten output retains the original
slash-prefixed attribute text `src="<path>"` unchanged, with the integrity of the
stripped path's file appended after it. -/
theorem c10_slash_resolution (fs : FS) (tmpl : List Char)
    (H1 : ∀ m ∈ findMatches tmpl, '"' ∉ m.g2)
    (H2 : ∀ m ∈ findMatches tmpl, occCount m.g1 tmpl = 1)
    (l1 : List RefMatch) (m : RefMatch) (l2 : List RefMatch)
    (hsplit : findMatches tmpl = l1 ++ m :: l2)
    (hslash : m.g2.take 1 = ['/'])
    (c : List Char) (hread : FS.read fs (m.g2.dropWhile (· = '/')) = some c) :
    scriptRel m.g2 = m.g2.dropWhile (· = '/') ∧
    ∃ u v, stampScripts fs tmpl
      = u ++ (srcLit ++ m.g2 ++ ['"']) ++ mkIntegrity (sriOf c) ++ v := by
  refine ⟨rfl, ?_⟩
  have hmem : m ∈ findMatches tmpl := by
    rw [hsplit]
    exact List.mem_append_right _ (List.mem_cons_self m l2)
  obtain ⟨hg1, -⟩ := findMatches_shape tmpl m hmem
  have htok : tokenFor fs m = some (mkIntegrity (sriOf c)) := by
    rw [tokenFor, file_to_sri, scriptRel, hread]
    rfl
  have hcons : stampedBlocks fs (m :: l2) = (m, tokenFor fs m) :: stampedBlocks fs l2 :=
    rfl
  refine ⟨((stampedBlocks fs l1).map blockText).flatten ++ m.pre,
    renderBlocks (stampedBlocks fs l2) (lastSeg tmpl), ?_⟩
  rw [stampScripts_render fs tmpl H1 H2, hsplit, stampedBlocks_append, hcons, htok,
    renderBlocks_split_at, ← hg1]
  simp [List.append_assoc]

/-! ## Witnesses: the claim theorems applied at concrete inputs -/

/-- Witness for claim C2's amended theorem: a template with one existing reference
(`w.js`) and one missing reference (`m.js`), hypotheses checked by evaluation. -/
theorem c2_witness :
    (∀ m ∈ findMatches tmplW2, '"' ∉ m.g2) ∧
    (∀ m ∈ findMatches tmplW2, occCount m.g1 tmplW2 = 1) ∧
    stampScripts fsW2 tmplW2
      = renderBlocks (stampedBlocks fsW2 (findMatches tmplW2)) (lastSeg tmplW2) :=
  ⟨by decide, by decide, (c2_stamping_amended fsW2 tmplW2 (by decide) (by decide)).2.1⟩

/-- Witness for claim C4's theorem: a concrete successful pass, rerun on the
resulting filesystem. -/
theorem c4_witness :
    compile_html fsW4 = Except.ok rW4 ∧
    ∃ r2, compile_html (applyResult fsW4 rW4) = Except.ok r2 ∧
      r2.outputs = rW4.outputs ∧ r2.stamped = rW4.stamped :=
  ⟨by decide, c4_idempotent fsW4 rW4 (by decide)⟩

/-- Witness for claim C5's theorem: one script, one fragment, single placeholder. -/
theorem c5_witness :
    compile_html fsW5 = Except.ok rW5 ∧
    occCount contentsMarker rW5.stamped = 1 ∧
    (∀ n out, (n, out) ∈ rW5.outputs →
      ∃ frag u v, FS.read fsW5 n = some frag ∧
        rW5.stamped = u ++ contentsMarker ++ v ∧ out = u ++ frag ++ v) :=
  ⟨by decide, by decide,
    (c5_fragment_compilation fsW5 rW5 (by decide) (by decide)).1⟩

/-- Witness for claim C6's amended theorem: a single reference to a missing file is
reproduced verbatim, followed by its original trailing text. -/
theorem c6_witness :
    findMatches tmplW6 = [] ++ mW6 :: [] ∧
    FS.read fsW6 (scriptRel mW6.g2) = none ∧
    ((∃ u v, stampScripts fsW6 tmplW6
        = u ++ (mW6.g1 ++ followTextOf [] (lastSeg tmplW6)) ++ v) ∧
     (∃ u v, tmplW6 = u ++ (mW6.g1 ++ followTextOf [] (lastSeg tmplW6)) ++ v)) :=
  ⟨by decide, by decide,
    c6_missing_untouched_amended fsW6 tmplW6 (by decide) (by decide) [] mW6 []
      (by decide) (by decide)⟩

/-- Witness for claim C7's theorem: a filesystem without a template, and one whose
compiled directory is absent and uncreatable. -/
theorem c7_witness :
    compile_html fsW7a = Except.error CompileError.templateMissing ∧
    compile_html fsW7b = Except.error CompileError.outputDirUncreatable :=
  ⟨(c7_fatal_startup fsW7a).1 rfl,
    (c7_fatal_startup fsW7b).2.1 (by decide) rfl rfl⟩

/-- Witness for claim C8's theorem: a pass over a filesystem whose compiled
directory is absent but creatable. -/
theorem c8_witness :
    fsW8.compiledExists = false ∧
    (applyResult fsW8 rW8).compiledExists = true ∧
    rW8.createdDirMode = some 0o700 :=
  ⟨rfl, (c8_output_dir fsW8 rW8 (by decide)).1,
    (c8_output_dir fsW8 rW8 (by decide)).2.1 rfl⟩

/-- Witness for claim C10's theorem: `src="/app.js"` stamped from the file
`app.js` under the static root. -/
theorem c10_witness :
    mW10.g2.take 1 = ['/'] ∧
    FS.read fsW10 (mW10.g2.dropWhile (· = '/')) = some "Z".toList ∧
    (scriptRel mW10.g2 = mW10.g2.dropWhile (· = '/') ∧
     ∃ u v, stampScripts fsW10 tmplW10
       = u ++ (srcLit ++ mW10.g2 ++ ['"']) ++ mkIntegrity (sriOf "Z".toList) ++ v) :=
  ⟨by decide, by decide,
    c10_slash_resolution fsW10 tmplW10 (by decide) (by decide) [] mW10 []
      (by decide) (by decide) "Z".toList (by decide)⟩
